import Mathlib

/-!
Shallow embedding of the two installer scripts of the `ai-tool-config`
repository (`claude/project_setup/install.py` and
`claude/user_setup/install.py`) together with theorems checking the
specification claims against this embedding.

Paths are modelled as lists of components in the style of Python
`pathlib.Path.parts` (an absolute path starts with the component "/").
All path arguments below stand for already-resolved paths, matching the
scripts, which call `resolve()` before any comparison.
-/

namespace ProjectSetup

/-- Filesystem kind of the object found at a resolved path: the possible
outcomes of the `is_dir` / `is_file` / `is_symlink` / `exists` tests
that `safe_delete` dispatches on. -/

inductive FsKind where
  | file
  | dir
  | symlink
  | absent
  | other
  deriving DecidableEq

/-- The deletion action performed by a successful `safe_delete`. -/

inductive DelAction where
  | rmtree
  | unlink
  deriving DecidableEq

/-- The errors raised by `safe_delete`. -/

inductive DelErr where
  | rootUser             -- RuntimeError: "Rejecting deletion: running as root"
  | tooShort             -- ValueError: "Path too short for deletion"
  | notSafe              -- ValueError: "not identified as a safe path to delete"
  | unexpectedDirectory  -- ValueError: "Expected file but found directory"
  | notFound             -- FileNotFoundError: "Path does not exist"
  | fishy                -- RuntimeError: the defensive catch-all
  deriving DecidableEq

/-- The `temp_roots` allow-list of `safe_delete`, as component lists. -/

def temp_roots : List (List String) :=
  [["/", "tmp"],
   ["/", "private", "var", "folders"],
   ["/", "var", "folders"],
   ["/", "var", "tmp"],
   ["/", "private", "tmp"]]

/-- `properAncestor r p` models `single_root in resolved_path.parents`:
`r` is a strict ancestor of `p`, i.e. a proper prefix of its components. -/

def properAncestor (r p : List String) : Bool :=
  r.isPrefixOf p && !(r == p)

/-- The containment loop of `safe_delete`: some temp root is a proper
ancestor of the resolved path (`is_safe` in the script). -/

def is_safe (p : List String) : Bool :=
  temp_roots.any (fun r => properAncestor r p)

/-- Shallow embedding of `safe_delete` from `claude/project_setup/install.py`.
`euid` is the result of `os.geteuid()`, `p` the resolved path as
components, `kind` the filesystem kind found at `p`, `directory_okay`
the flag of the same name.  A returned action means the deletion was
performed; an error means nothing was deleted. -/

def safe_delete (euid : Nat) (p : List String) (kind : FsKind)
    (directory_okay : Bool) : Except DelErr DelAction :=
  if euid = 0 then .error .rootUser
  else if p.length ≤ 1 then .error .tooShort
  else if !(is_safe p) then .error .notSafe
  else if kind = .dir ∧ directory_okay = true then .ok .rmtree
  else if kind = .dir ∧ directory_okay = false then .error .unexpectedDirectory
  else if kind = .file ∨ kind = .symlink then .ok .unlink
  else if kind = .absent then .error .notFound
  else .error .fishy

/-- The `excluded_dirs` deny-list of `check_safe_directory` in
`claude/project_setup/install.py`, parameterised over the resolved home
directory (`Path.home()`).  Each entry stands for its resolved form. -/

def excluded_dirs (home : List String) : List (List String) :=
  [home,
   home ++ ["Documents"],
   home ++ ["Desktop"],
   home ++ ["Downloads"],
   ["/", "tmp"],
   ["/", "var"],
   ["/", "Users"],
   ["/", "home"],
   ["/", "System"],
   ["/", "usr"],
   ["/", "opt"]]

/-- Shallow embedding of the project variant of `check_safe_directory`:
loop over the deny-list and raise `ValueError` on the first entry whose
resolved form equals the resolved target. -/

def check_safe_directory (home target : List String) : Except String Unit :=
  match (excluded_dirs home).find? (fun ex => ex == target) with
  | some _ => .error "Cannot install - unsafe directory"
  | none => .ok ()

/-! ### Python string primitives

The manifest filter and the interactive parser work on Python strings.
They are modelled on `List Char` with structural recursion so that every
definition evaluates inside the kernel.  `containsSub` is Python
`sub in s`, `pySplit` is Python `s.split(sep)` for a non-empty separator
(fuelled by the string length, which bounds the number of fragments),
and `pySplitlines` is Python `str.splitlines` for newline-terminated
text (only "\n" line endings are modelled). -/


/-- Python `sub in s` (substring containment). -/

def containsSub (sep : List Char) : List Char → Bool
  | [] => sep.isEmpty
  | c :: rest => sep.isPrefixOf (c :: rest) || containsSub sep rest

/-- Split off the first occurrence of `sep`: returns the part before it
and the part after it, or `none` when `sep` does not occur. -/

def findSplit (sep : List Char) : List Char → Option (List Char × List Char)
  | [] => if sep.isEmpty then some ([], []) else none
  | c :: rest =>
    if sep.isPrefixOf (c :: rest) then some ([], (c :: rest).drop sep.length)
    else
      match findSplit sep rest with
      | some (pre, suf) => some (c :: pre, suf)
      | none => none

/-- Fuelled worker for `pySplit`. -/

def splitGo (sep : List Char) : Nat → List Char → List (List Char)
  | 0, s => [s]
  | fuel + 1, s =>
    match findSplit sep s with
    | none => [s]
    | some (pre, suf) => pre :: splitGo sep fuel suf

/-- Python `s.split(sep)` for non-empty `sep`: each occurrence consumes at
least one character, so `s.length + 1` fuel always suffices. -/

def pySplit (sep s : List Char) : List (List Char) := splitGo sep (s.length + 1) s

/-- Worker for `pySplitlines`, accumulating the current line reversed. -/

def splitlinesGo (cur : List Char) : List Char → List (List Char)
  | [] => if cur.isEmpty then [] else [cur.reverse]
  | c :: rest =>
    if c = '\n' then cur.reverse :: splitlinesGo [] rest
    else splitlinesGo (c :: cur) rest

/-- Python `s.splitlines()` restricted to "\n" endings: a trailing newline
produces no empty final line. -/

def pySplitlines (s : List Char) : List (List Char) := splitlinesGo [] s

/-- Python `"\n".join(lines)`. -/

def joinNL : List (List Char) → List Char
  | [] => []
  | [l] => l
  | l :: rest => l ++ '\n' :: joinNL rest

/-! ### `clean_claude_md` (manifest filtering) -/


/-- The marker token `"@agent_instructions/languages/"` of `clean_claude_md`. -/

def markerL : List Char := "@agent_instructions/languages/".toList

/-- The for-loop of `clean_claude_md`, transcribed line by line: a line
containing the marker is kept only when `parts[1].split("/")[0]` is one
of the kept languages (and skipped when the split yields a single
part); any other line passes through. -/

def filter_lines (keep : List String) : List (List Char) → List (List Char)
  | [] => []
  | line :: rest =>
    if containsSub markerL line then
      match pySplit markerL line with
      | _ :: p1 :: _ =>
        if keep.contains (String.mk ((pySplit ['/'] p1).headD [])) then
          line :: filter_lines keep rest
        else filter_lines keep rest
      | _ => filter_lines keep rest
    else line :: filter_lines keep rest

/-- The per-line keep decision the specification describes: marker-free
lines pass through; marker lines survive exactly when their parsed
language segment is kept (an unparseable segment is dropped). -/

def lineKept (keep : List String) (line : List Char) : Bool :=
  if containsSub markerL line then
    match pySplit markerL line with
    | _ :: p1 :: _ => keep.contains (String.mk ((pySplit ['/'] p1).headD []))
    | _ => false
  else true

/-- Shallow embedding of `clean_claude_md`: reject an empty keep set,
otherwise split the manifest into lines, filter them, and rejoin with
newlines plus a single trailing newline. -/

def clean_claude_md_content (content : List Char) (keep : List String) :
    Except String (List Char) :=
  if keep.isEmpty then .error "No languages specified to keep in CLAUDE.md"
  else .ok (joinNL (filter_lines keep (pySplitlines content)) ++ ['\n'])

/-! ### `choose_languages_interactively` -/


/-- Python `str.isdigit` (ASCII digits). -/

def pyIsDigit (tok : List Char) : Bool :=
  !tok.isEmpty && tok.all Char.isDigit

/-- Value of `int(tok)` for a digit-only token. -/

def digitsToNat (tok : List Char) : Nat :=
  tok.foldl (fun n c => n * 10 + (c.toNat - '0'.toNat)) 0

/-- Python `str.strip`: drop leading and trailing whitespace. -/

def pyStrip (s : List Char) : List Char :=
  ((s.dropWhile Char.isWhitespace).reverse.dropWhile Char.isWhitespace).reverse

/-- Worker for `pyWords`, accumulating the current token reversed. -/

def wordsGo (cur : List Char) : List Char → List (List Char)
  | [] => if cur.isEmpty then [] else [cur.reverse]
  | c :: rest =>
    if c.isWhitespace then
      if cur.isEmpty then wordsGo [] rest else cur.reverse :: wordsGo [] rest
    else wordsGo (c :: cur) rest

/-- Python `s.split()` without separator: split on whitespace runs,
discarding empty tokens. -/

def pyWords (s : List Char) : List (List Char) := wordsGo [] s

/-- Resolution of one token of user input in
`choose_languages_interactively`: a digit-only token selects by 1-based
index (out of range raises the invalid-number error), any other token
must equal one of the available language names (otherwise the
unknown-language error). -/

def resolveToken (avail : List String) (tok : List Char) : Except String String :=
  if pyIsDigit tok then
    let index : Int := (digitsToNat tok : Int) - 1
    if 0 ≤ index ∧ index < avail.length then .ok (avail.getD index.toNat "")
    else .error "Invalid number"
  else
    if String.mk tok ∈ avail then .ok (String.mk tok)
    else .error "Unknown language"

/-- The duplicate-removal loop of the script (`seen` set, order kept). -/

def dedupGo (seen : List String) : List String → List String
  | [] => []
  | x :: rest =>
    if x ∈ seen then dedupGo seen rest
    else x :: dedupGo (x :: seen) rest

/-- Shallow embedding of `choose_languages_interactively` applied to one
line of user input: stripped-empty input fails, each
whitespace-separated token is resolved (first failure aborts), and the
results are de-duplicated preserving first-seen order. -/

def choose_languages_interactively (avail : List String) (input : List Char) :
    Except String (List String) :=
  if (pyStrip input).isEmpty then .error "No languages selected"
  else do
    let chosen ← (pyWords (pyStrip input)).mapM (resolveToken avail)
    return dedupGo [] chosen

/-! ### Directory model for backup and installation

A directory is a list of named entries (the order of `iterdir`); an
entry is a file with its text or a nested directory.  Lookup returns
the first entry with the given name, matching a real directory, where
names are unique. -/


/-- A filesystem entry: a file with its contents, or a directory. -/

inductive Entry where
  | file (content : List Char)
  | dir (entries : List (String × Entry))

/-- The contents of one directory. -/

abbrev Dir := List (String × Entry)

/-- First entry with the given name, `none` if absent (models
`(dest_dir / name).exists()` and reads). -/

def lookupEntry : Dir → String → Option Entry
  | [], _ => none
  | p :: rest, n => if p.1 == n then some p.2 else lookupEntry rest n

/-- The fixed prefix of backup directory names. -/

def backupPrefix : String := ".claude_backup_"

/-- `f".claude_backup_{timestamp}"`. -/

def backupName (ts : String) : String := backupPrefix ++ ts

/-- Whether an entry is a timestamped backup directory, by name prefix. -/

def isBackupEntry (p : String × Entry) : Bool :=
  backupPrefix.data.isPrefixOf p.1.data

/-- Number of backup directories among the entries of `d`. -/

def countBackupDirs (d : Dir) : Nat := (d.filter isBackupEntry).length

/-- The conflict scan of `backup_conflicting_files`: names of incoming
items that already exist in the destination, in incoming order. -/

def conflictsOf (d : Dir) (ns : List String) : List String :=
  ns.filter (fun n => (lookupEntry d n).isSome)

/-- The entries moved into the backup directory: each conflicting name
with the destination entry it had, preserving the name. -/

def movedOf (d : Dir) (cs : List String) : Dir :=
  cs.filterMap (fun n => (lookupEntry d n).map (fun e => (n, e)))

/-- Shallow embedding of `backup_conflicting_files`: no conflicts means no
mutation; otherwise `backup_dir.mkdir()` (failing if an entry with the
backup name already exists) followed by moving every conflicting entry
out of the destination into the backup directory. -/

def backup_conflicting_files (ts : String) (dest : Dir) (sourceNames : List String) :
    Except String Dir :=
  let conflicts := conflictsOf dest sourceNames
  if conflicts.isEmpty then .ok dest
  else if (lookupEntry dest (backupName ts)).isSome then
    .error "FileExistsError: backup directory already exists"
  else
    .ok (dest.filter (fun p => !(conflicts.contains p.1)) ++
      [(backupName ts, .dir (movedOf dest conflicts))])

/-- Overwrite the entry named `n` (or append it when absent). -/

def setEntry (d : Dir) (n : String) (e : Entry) : Dir :=
  if (lookupEntry d n).isSome then
    d.map (fun p => if p.1 == n then (n, e) else p)
  else d ++ [(n, e)]

/-- One iteration of the copy loop of `install_configuration`.  The
second component counts executions of the `shutil.rmtree(dest)` branch
(directory item with an existing destination counterpart). -/

def copyStep (acc : Dir × Nat) (item : String × Entry) : Dir × Nat :=
  match item.2 with
  | .dir _ =>
    if (lookupEntry acc.1 item.1).isSome then
      (setEntry acc.1 item.1 item.2, acc.2 + 1)
    else (acc.1 ++ [item], acc.2)
  | .file _ => (setEntry acc.1 item.1 item.2, acc.2)

/-- The copy loop of `install_configuration` over the source items,
returning the final destination and the number of `rmtree` executions. -/

def copy_items (src : Dir) (dest : Dir) : Dir × Nat :=
  src.foldl copyStep (dest, 0)

/-! ### `install_configuration` (project-local install) -/


/-- The entries of `agent_instructions/languages` when both levels exist
as directories (`temp_source_dir / "agent_instructions" / "languages"`). -/

def getLangDir (items : Dir) : Option Dir :=
  match lookupEntry items "agent_instructions" with
  | some (.dir ai) =>
    match lookupEntry ai "languages" with
    | some (.dir ls) => some ls
    | _ => none
  | _ => none

/-- Rebuild the bundle with new language-folder contents. -/

def setLangDir (items : Dir) (ls : Dir) : Dir :=
  match lookupEntry items "agent_instructions" with
  | some (.dir ai) =>
    setEntry items "agent_instructions" (.dir (setEntry ai "languages" (.dir ls)))
  | _ => items

/-- The language-existence validation loop of `install_configuration`:
`(lang_dir / lang).exists()` must hold for every requested language. -/

def validate_languages (items : Dir) (langs : List String) : Bool :=
  langs.all (fun l =>
    match getLangDir items with
    | some ls => (lookupEntry ls l).isSome
    | none => false)

/-- Shallow embedding of `clean_language_files`: reject an empty keep
set, require the languages folder, and delete (via the deletion path,
directories allowed, inside the scratch tree) every immediate
subdirectory whose name is not kept; plain files are left alone. -/

def clean_language_files (items : Dir) (keep : List String) : Except String Dir :=
  if keep.isEmpty then .error "No languages specified to keep"
  else
    match getLangDir items with
    | some ls =>
      .ok (setLangDir items (ls.filter (fun p =>
        match p.2 with
        | .dir _ => keep.contains p.1
        | .file _ => true)))
    | none => .error "Languages directory not found"

/-- `clean_claude_md` at the directory level: the manifest must exist as
a file; its content is filtered by `clean_claude_md_content` and
written back in place. -/

def clean_claude_md (items : Dir) (keep : List String) : Except String Dir :=
  match lookupEntry items "CLAUDE.md" with
  | some (.file content) => do
    let c2 ← clean_claude_md_content content keep
    .ok (setEntry items "CLAUDE.md" (.file c2))
  | _ => .error "CLAUDE.md file not found"

/-- The packaging-only files removed before installation. -/

def files_to_remove : List String := ["README.md", "install.sh", "install.py"]

/-- `file_path.unlink()` for one packaging file when it exists. -/

def remove_packaging_file (items : Dir) (n : String) : Except String Dir :=
  match lookupEntry items n with
  | some (.file _) => .ok (items.filter (fun p => !(p.1 == n)))
  | some (.dir _) => .error "IsADirectoryError"
  | none => .ok items

/-- Steps 1-5 of `install_configuration` on the scratch copy: validate
the requested languages, drop unselected language folders, filter the
manifest, remove packaging-only files. -/

def prepare_source (items : Dir) (langs : List String) : Except String Dir := do
  if validate_languages items langs then
    let i1 ← clean_language_files items langs
    let i2 ← clean_claude_md i1 langs
    files_to_remove.foldlM remove_packaging_file i2
  else .error "Language not found in repository"

/-- Shallow embedding of `install_configuration`: prepare the scratch
copy, back up conflicting destination entries, then run the copy loop
(whose rmtree counter the script does not observe). -/

def install_configuration (dest : Dir) (bundle : Dir) (langs : List String)
    (ts : String) : Except String Dir := do
  let src ← prepare_source bundle langs
  let d1 ← backup_conflicting_files ts dest (src.map Prod.fst)
  .ok (copy_items src d1).1

/-- The concrete project bundle used for the C9 counterexample and
witness: one available language and a one-line manifest. -/

def c9Bundle : Dir :=
  [("agent_instructions", .dir [("languages", .dir [("python", .dir [])])]),
   ("CLAUDE.md", .file "x".toList)]

/-- The prepared source of `c9Bundle` for `["python"]`, which is also the
destination contents after one run on an empty destination. -/

def c9Out1 : Dir :=
  [("agent_instructions", .dir [("languages", .dir [("python", .dir [])])]),
   ("CLAUDE.md", .file "x\n".toList)]

/-- The destination contents after the second consecutive run. -/

def c9Out2 : Dir :=
  (backupName "t2", Entry.dir c9Out1) :: c9Out1

end ProjectSetup

namespace UserSetup

/-- The filesystem facts `install_with_git_clone` checks inside the fresh
clone of the configuration repository. -/

structure CloneFs where
  userSetupExists : Bool
  claudeMdExists : Bool
  commandsExists : Bool

/-- The externally visible actions of the user-wide installer, in the
order `main` performs them. -/

inductive UserAction where
  | backupMove       -- shutil.move of the old config dir to a sibling backup
  | mkdirDest        -- config_dir.mkdir(parents=False, exist_ok=False)
  | gitClone         -- git clone into <destination>/instructions_repository_clone
  | symlinkClaudeMd  -- <destination>/CLAUDE.md -> manifest in the clone
  | symlinkCommands  -- <destination>/commands -> commands folder in the clone
  deriving DecidableEq

/-- Shallow embedding of the user variant of `check_safe_directory`:
`config_dir.resolve().relative_to(home_dir.resolve())` raises
`ValueError` exactly when the resolved home is not a prefix of the
resolved destination. -/

def check_safe_directory (home dest : List String) : Except String Unit :=
  if home.isPrefixOf dest then .ok ()
  else .error "ValueError: path is not in the subpath of home"

/-- Shallow embedding of `install_with_git_clone` (the clone itself is
the external collaborator, assumed here to succeed): the clone must
contain the `user_setup` folder and its `CLAUDE.md` manifest; the
manifest symlink is always created, the commands symlink only when the
commands folder exists - its absence raises no error. -/

def install_with_git_clone (fs : CloneFs) : Except String (List UserAction) :=
  if !fs.userSetupExists then
    .error "User setup directory not found in repository"
  else if !fs.claudeMdExists then
    .error "CLAUDE.md not found in repository"
  else
    .ok ([.gitClone, .symlinkClaudeMd] ++
      if fs.commandsExists then [.symlinkCommands] else [])

/-- Whether a result is an error. -/

def isErr : Except String (List UserAction) → Bool
  | .error _ => true
  | .ok _ => false

/-- Shallow embedding of `main` of `claude/user_setup/install.py`: refuse
root, back up an existing configuration directory, recreate it, install
via git clone.  `destResolved` stands for what `(home /
".claude").resolve()` yields and `destExists` for whether it exists.
The script defines `check_safe_directory` but `main` never invokes it,
which the embedding transcribes faithfully: `destResolved` and `home`
are not consulted anywhere. -/

def user_main (euid : Nat) (home destResolved : List String) (destExists : Bool)
    (clone : CloneFs) : Except String (List UserAction) :=
  if euid = 0 then .error "Do not run this script as root"
  else do
    let backupActs := if destExists then [UserAction.backupMove] else []
    let links ← install_with_git_clone clone
    .ok (backupActs ++ [UserAction.mkdirDest] ++ links)

end UserSetup

namespace ProjectSetup

/-- Every allow-list root has at least two components. -/

theorem temp_roots_length : ∀ r ∈ temp_roots, 2 ≤ r.length := by
  decide

/-- A path strictly contained in a temp root has more than one component. -/

theorem is_safe_length {p : List String} (h : is_safe p = true) : 2 ≤ p.length := by
  unfold is_safe at h
  rcases List.any_eq_true.mp h with ⟨r, hr, hanc⟩
  have hanc' : r.isPrefixOf p = true ∧ ¬ r = p := by
    simpa [properAncestor] using hanc
  rcases hanc' with ⟨hpre, hne⟩
  have hpre' : r <+: p := by
    exact List.isPrefixOf_iff_prefix.mp hpre
  have hle : r.length ≤ p.length := hpre'.length_le
  have h2 : 2 ≤ r.length := temp_roots_length r hr
  rcases Nat.lt_or_ge r.length p.length with hlt | hge
  · omega
  · exact absurd (hpre'.eq_of_length (by omega)) hne

/-- C1: `safe_delete` rejects the deletion, performing no action, whenever
the effective user is root (checked first, regardless of path), whenever
the resolved path has one or fewer components, and whenever the resolved
path is not strictly contained in one of the fixed temp roots; in the
containment case (non-root caller, path long enough) the error is the
containment error `notSafe`. -/

theorem spec_C1 (euid : Nat) (p : List String) (kind : FsKind) (ok : Bool) :
    (euid = 0 → safe_delete euid p kind ok = .error .rootUser) ∧
    (p.length ≤ 1 → ∃ e, safe_delete euid p kind ok = .error e) ∧
    (is_safe p = false → ∃ e, safe_delete euid p kind ok = .error e) ∧
    (euid ≠ 0 → 2 ≤ p.length → is_safe p = false →
      safe_delete euid p kind ok = .error .notSafe) := by
  refine ⟨?_, ?_, ?_, ?_⟩
  · intro h
    simp [safe_delete, h]
  · intro h
    unfold safe_delete
    by_cases h0 : euid = 0
    · rw [if_pos h0]
      exact ⟨_, rfl⟩
    · rw [if_neg h0, if_pos h]
      exact ⟨_, rfl⟩
  · intro h
    unfold safe_delete
    by_cases h0 : euid = 0
    · rw [if_pos h0]
      exact ⟨_, rfl⟩
    · rw [if_neg h0]
      by_cases h1 : p.length ≤ 1
      · rw [if_pos h1]
        exact ⟨_, rfl⟩
      · rw [if_neg h1, if_pos (by simp [h])]
        exact ⟨_, rfl⟩
  · intro h1 h2 h3
    unfold safe_delete
    rw [if_neg h1, if_neg (by omega), if_pos (by simp [h3])]

/-- Concrete instances of C1: running as root is rejected on a path inside
`/tmp`; the path `/` is rejected; a path outside every temp root is
rejected with the containment error. -/

theorem spec_C1_witness :
    safe_delete 0 ["/", "tmp", "x"] .file true = .error .rootUser ∧
    (∃ e, safe_delete 7 ["/"] .file true = .error e) ∧
    (∃ e, safe_delete 7 ["/", "usr", "lib"] .dir true = .error e) ∧
    safe_delete 7 ["/", "usr", "lib"] .dir true = .error .notSafe := by
  refine ⟨?_, ?_, ?_, ?_⟩
  · exact (spec_C1 0 ["/", "tmp", "x"] .file true).1 rfl
  · exact (spec_C1 7 ["/"] .file true).2.1 (by decide)
  · exact (spec_C1 7 ["/", "usr", "lib"] .dir true).2.2.1 (by decide)
  · exact (spec_C1 7 ["/", "usr", "lib"] .dir true).2.2.2 (by decide) (by decide)
      (by decide)

/-- C2: once the containment checks pass (non-root caller, path strictly
inside a temp root), `safe_delete` dispatches by filesystem kind: a
directory is removed only with `directory_okay` set and otherwise fails
with `unexpectedDirectory`; a file or symlink is always unlinked; an
absent path fails with `notFound`; any other existing kind fails with
the internal-consistency error `fishy`. -/

theorem spec_C2 (euid : Nat) (p : List String) (ok : Bool)
    (hroot : euid ≠ 0) (hsafe : is_safe p = true) :
    safe_delete euid p .dir true = .ok .rmtree ∧
    safe_delete euid p .dir false = .error .unexpectedDirectory ∧
    safe_delete euid p .file ok = .ok .unlink ∧
    safe_delete euid p .symlink ok = .ok .unlink ∧
    safe_delete euid p .absent ok = .error .notFound ∧
    safe_delete euid p .other ok = .error .fishy := by
  have hlen : ¬ p.length ≤ 1 := by
    have := is_safe_length hsafe
    omega
  refine ⟨?_, ?_, ?_, ?_, ?_, ?_⟩ <;>
    simp [safe_delete, hroot, hlen, hsafe]

/-- Concrete instance of C2 at the path `/tmp/scratch` with euid 7. -/

theorem spec_C2_witness :
    safe_delete 7 ["/", "tmp", "scratch"] .dir true = .ok .rmtree ∧
    safe_delete 7 ["/", "tmp", "scratch"] .dir false = .error .unexpectedDirectory ∧
    safe_delete 7 ["/", "tmp", "scratch"] .file true = .ok .unlink ∧
    safe_delete 7 ["/", "tmp", "scratch"] .symlink true = .ok .unlink ∧
    safe_delete 7 ["/", "tmp", "scratch"] .absent true = .error .notFound ∧
    safe_delete 7 ["/", "tmp", "scratch"] .other true = .error .fishy :=
  spec_C2 7 ["/", "tmp", "scratch"] true (by decide) (by decide)

/-- C3: the project-install validator fails exactly on resolved paths that
equal a deny-list entry; every other path succeeds, including strict
subdirectories of deny-listed directories, such as a subdirectory of
`/usr`. -/

theorem spec_C3 :
    (∀ home target : List String,
      ((∃ e, check_safe_directory home target = .error e) ↔
        target ∈ excluded_dirs home) ∧
      (target ∉ excluded_dirs home → check_safe_directory home target = .ok ())) ∧
    check_safe_directory ["/", "home", "u"] ["/", "usr", "local"] = .ok () ∧
    (∃ e, check_safe_directory ["/", "home", "u"] ["/", "usr"] = .error e) := by
  refine ⟨?_, rfl, ⟨"Cannot install - unsafe directory", rfl⟩⟩
  intro home target
  have hfind :
      ((excluded_dirs home).find? (fun ex => ex == target)).isSome = true ↔
        target ∈ excluded_dirs home := by
    rw [List.find?_isSome]
    constructor
    · rintro ⟨x, hx, hbeq⟩
      rw [beq_iff_eq] at hbeq
      rwa [← hbeq]
    · intro h
      exact ⟨target, h, by simp⟩
  constructor
  · constructor
    · rintro ⟨e, he⟩
      apply hfind.mp
      unfold check_safe_directory at he
      rcases hcase : (excluded_dirs home).find? (fun ex => ex == target) with _ | x
      · rw [hcase] at he
        exact absurd he (by simp)
      · rfl
    · intro h
      unfold check_safe_directory
      rcases hcase : (excluded_dirs home).find? (fun ex => ex == target) with _ | x
      · have hs := hfind.mpr h
        rw [hcase] at hs
        exact absurd hs (by simp)
      · exact ⟨_, rfl⟩
  · intro h
    unfold check_safe_directory
    rcases hcase : (excluded_dirs home).find? (fun ex => ex == target) with _ | x
    · rfl
    · have hs := hfind.mp (by rw [hcase]; rfl)
      exact absurd hs h

/-- Concrete instance of C3: a project directory under home passes. -/

theorem spec_C3_witness :
    check_safe_directory ["/", "home", "u"] ["/", "home", "u", "proj"] = .ok () :=
  (spec_C3.1 ["/", "home", "u"] ["/", "home", "u", "proj"]).2 (by decide)

/-- The transcription of the for-loop agrees with a filter by `lineKept`,
keeping lines in their original order. -/

theorem filter_lines_eq (keep : List String) (lines : List (List Char)) :
    filter_lines keep lines = lines.filter (fun l => lineKept keep l) := by
  induction lines with
  | nil => rfl
  | cons line rest ih =>
    by_cases hc : containsSub markerL line = true
    · rcases hm : pySplit markerL line with _ | ⟨a, _ | ⟨b, t⟩⟩
      · simp [filter_lines, lineKept, hc, hm, ih]
      · simp [filter_lines, lineKept, hc, hm, ih]
      · by_cases hk : String.mk ((pySplit ['/'] b).head?.getD []) ∈ keep
        · simp [filter_lines, lineKept, hc, hm, hk, ih]
        · simp [filter_lines, lineKept, hc, hm, hk, ih]
    · simp [filter_lines, lineKept, hc, ih]

/-- C5: for a non-empty keep set, `clean_claude_md` keeps, in order, every
marker-free line unchanged and every marker line whose parsed language
segment is kept, drops every other marker line, and produces the kept
lines joined by newlines with a single trailing newline; an empty keep
set is rejected. -/

theorem spec_C5 (content : List Char) (keep : List String) :
    (keep ≠ [] →
      clean_claude_md_content content keep =
        .ok (joinNL ((pySplitlines content).filter (fun l => lineKept keep l)) ++
          ['\n'])) ∧
    (keep = [] → ∃ e, clean_claude_md_content content keep = .error e) := by
  constructor
  · intro h
    have hne : keep.isEmpty = false := by
      cases keep with
      | nil => exact absurd rfl h
      | cons a l => rfl
    unfold clean_claude_md_content
    rw [if_neg (by simp [hne]), filter_lines_eq]
  · intro h
    subst h
    exact ⟨_, rfl⟩

/-- Concrete instance of C5, the example from the specification: keeping
`python` retains the python marker line and the plain line, in order,
and drops the go marker line. -/

theorem spec_C5_witness :
    clean_claude_md_content
        ("@agent_instructions/languages/python/x.md\n" ++
         "@agent_instructions/languages/go/y.md\n" ++
         "plain text").toList ["python"] =
      .ok ("@agent_instructions/languages/python/x.md\nplain text\n").toList := by
  have h := (spec_C5
    ("@agent_instructions/languages/python/x.md\n" ++
     "@agent_instructions/languages/go/y.md\n" ++
     "plain text").toList ["python"]).1 (by simp)
  rw [h]
  rfl

/-- `dedupGo` yields a duplicate-free list avoiding the seen set. -/

theorem dedupGo_nodup (l : List String) :
    ∀ seen, (dedupGo seen l).Nodup ∧ ∀ x ∈ dedupGo seen l, x ∉ seen := by
  induction l with
  | nil =>
    intro seen
    simp [dedupGo]
  | cons x rest ih =>
    intro seen
    by_cases hx : x ∈ seen
    · simp only [dedupGo, if_pos hx]
      exact ih seen
    · simp only [dedupGo, if_neg hx]
      constructor
      · rw [List.nodup_cons]
        refine ⟨?_, (ih (x :: seen)).1⟩
        intro hmem
        exact (ih (x :: seen)).2 x hmem (List.mem_cons_self x seen)
      · intro y hy
        rcases List.mem_cons.mp hy with rfl | hy'
        · exact hx
        · intro hys
          exact (ih (x :: seen)).2 y hy' (List.mem_cons_of_mem x hys)

/-- C6: interactive selection resolves digit tokens as 1-based indices
(failing out of range) and other tokens as language names (failing on
unknown names), fails on stripped-empty input, always returns a
duplicate-free list, and on the specification examples over
`["python","go","rust"]`: input "1 3" gives `["python","rust"]`, input
"python python go" de-duplicates to `["python","go"]`, and inputs "4",
"java" and "" fail. -/

theorem spec_C6 :
    (∀ (avail : List String) (tok : List Char),
      pyIsDigit tok = true → 1 ≤ digitsToNat tok →
      digitsToNat tok ≤ avail.length →
        resolveToken avail tok = .ok (avail.getD (digitsToNat tok - 1) "")) ∧
    (∀ (avail : List String) (tok : List Char),
      pyIsDigit tok = true →
      ¬(1 ≤ digitsToNat tok ∧ digitsToNat tok ≤ avail.length) →
        ∃ e, resolveToken avail tok = .error e) ∧
    (∀ (avail : List String) (tok : List Char),
      pyIsDigit tok = false → String.mk tok ∈ avail →
        resolveToken avail tok = .ok (String.mk tok)) ∧
    (∀ (avail : List String) (tok : List Char),
      pyIsDigit tok = false → String.mk tok ∉ avail →
        ∃ e, resolveToken avail tok = .error e) ∧
    (∀ (avail : List String) (input : List Char),
      (pyStrip input).isEmpty = true →
        ∃ e, choose_languages_interactively avail input = .error e) ∧
    (∀ (avail : List String) (input : List Char) (l : List String),
      choose_languages_interactively avail input = .ok l → l.Nodup) ∧
    choose_languages_interactively ["python", "go", "rust"] "1 3".toList =
      .ok ["python", "rust"] ∧
    choose_languages_interactively ["python", "go", "rust"]
      "python python go".toList = .ok ["python", "go"] ∧
    (∃ e, choose_languages_interactively ["python", "go", "rust"] "4".toList =
      .error e) ∧
    (∃ e, choose_languages_interactively ["python", "go", "rust"] "java".toList =
      .error e) ∧
    (∃ e, choose_languages_interactively ["python", "go", "rust"] "".toList =
      .error e) := by
  refine ⟨?_, ?_, ?_, ?_, ?_, ?_, rfl, rfl, ⟨_, rfl⟩, ⟨_, rfl⟩, ⟨_, rfl⟩⟩
  · intro avail tok hd h1 h2
    unfold resolveToken
    rw [if_pos hd, if_pos (by constructor <;> omega)]
    have ht : ((digitsToNat tok : Int) - 1).toNat = digitsToNat tok - 1 := by omega
    rw [ht]
  · intro avail tok hd hrange
    unfold resolveToken
    rw [if_pos hd, if_neg (by omega)]
    exact ⟨_, rfl⟩
  · intro avail tok hd hmem
    unfold resolveToken
    rw [if_neg (by simp [hd]), if_pos hmem]
  · intro avail tok hd hmem
    unfold resolveToken
    rw [if_neg (by simp [hd]), if_neg hmem]
    exact ⟨_, rfl⟩
  · intro avail input h
    unfold choose_languages_interactively
    rw [if_pos h]
    exact ⟨_, rfl⟩
  · intro avail input l h
    unfold choose_languages_interactively at h
    by_cases he : (pyStrip input).isEmpty = true
    · rw [if_pos he] at h
      exact Except.noConfusion h
    · rw [if_neg he] at h
      rcases hmm : (pyWords (pyStrip input)).mapM (resolveToken avail)
        with e | chosen
      · rw [hmm] at h
        exact Except.noConfusion h
      · rw [hmm] at h
        have h' : (Except.ok (dedupGo [] chosen) : Except String (List String)) =
            Except.ok l := h
        have hl : dedupGo [] chosen = l := by
          injection h'
        rw [← hl]
        exact (dedupGo_nodup chosen []).1

/-- Concrete instances for the hypotheses of C6: whitespace-only input
fails, and the successful "1 3" selection is duplicate-free. -/

theorem spec_C6_witness :
    (∃ e, choose_languages_interactively ["python"] "   ".toList = .error e) ∧
    resolveToken ["python", "go", "rust"] "2".toList = .ok "go" ∧
    List.Nodup ["python", "rust"] := by
  refine ⟨?_, ?_, ?_⟩
  · exact spec_C6.2.2.2.2.1 ["python"] "   ".toList (by decide)
  · have h := spec_C6.1 ["python", "go", "rust"] "2".toList (by decide)
      (by decide) (by decide)
    rw [h]
    rfl
  · exact spec_C6.2.2.2.2.2.1 ["python", "go", "rust"] "1 3".toList
      ["python", "rust"] rfl

/-! Lookup lemmas. -/


theorem lookupEntry_eq_none (d : Dir) (n : String) :
    lookupEntry d n = none ↔ n ∉ d.map Prod.fst := by
  induction d with
  | nil => simp [lookupEntry]
  | cons p rest ih =>
    by_cases hpn : p.1 = n
    · simp [lookupEntry, hpn]
    · have hn : ¬ n = p.1 := fun h => hpn h.symm
      simp [lookupEntry, hpn, ih, hn]

theorem lookupEntry_isSome (d : Dir) (n : String) :
    (lookupEntry d n).isSome = true ↔ n ∈ d.map Prod.fst := by
  induction d with
  | nil => simp [lookupEntry]
  | cons p rest ih =>
    by_cases hpn : p.1 = n
    · simp [lookupEntry, hpn]
    · have hn : ¬ n = p.1 := fun h => hpn h.symm
      simp [lookupEntry, hpn, ih, hn]

theorem lookupEntry_append (d1 d2 : Dir) (n : String) :
    lookupEntry (d1 ++ d2) n =
      match lookupEntry d1 n with
      | some e => some e
      | none => lookupEntry d2 n := by
  induction d1 with
  | nil => simp [lookupEntry]
  | cons p rest ih =>
    by_cases hpn : p.1 = n <;> simp [lookupEntry, hpn, ih]

theorem lookupEntry_append_left (d1 d2 : Dir) (n : String)
    (h : n ∉ d1.map Prod.fst) : lookupEntry (d1 ++ d2) n = lookupEntry d2 n := by
  rw [lookupEntry_append, (lookupEntry_eq_none d1 n).mpr h]

/-- Filtering by a predicate that keeps every entry named `n` does not
change the lookup of `n`. -/

theorem lookupEntry_filter_keep (d : Dir) (q : String × Entry → Bool) (n : String)
    (h : ∀ e, q (n, e) = true) : lookupEntry (d.filter q) n = lookupEntry d n := by
  induction d with
  | nil => simp [lookupEntry]
  | cons p rest ih =>
    by_cases hpn : p.1 = n
    · have hq : q p = true := by
        rcases p with ⟨m, e⟩
        rw [show m = n from hpn]
        exact h e
      rw [List.filter_cons, if_pos hq]
      simp [lookupEntry, hpn]
    · rw [List.filter_cons]
      rcases hq : q p with _ | _
      · simp only [Bool.false_eq_true, if_false]
        rw [ih]
        simp [lookupEntry, hpn]
      · simp only [if_true]
        simp [lookupEntry, hpn, ih]

/-- Filtering by a predicate that drops every entry named `n` removes `n`
from the lookup domain. -/

theorem lookupEntry_filter_drop (d : Dir) (q : String × Entry → Bool) (n : String)
    (h : ∀ e, q (n, e) = false) : lookupEntry (d.filter q) n = none := by
  rw [lookupEntry_eq_none]
  intro hmem
  rcases List.mem_map.mp hmem with ⟨p, hp, hfst⟩
  have hq := List.mem_filter.mp hp
  rcases p with ⟨m, e⟩
  rw [show m = n from hfst] at hq
  rw [h e] at hq
  exact Bool.noConfusion hq.2

theorem mem_names_filter {d : Dir} {q : String × Entry → Bool} {n : String}
    (h : n ∈ (d.filter q).map Prod.fst) : n ∈ d.map Prod.fst := by
  rcases List.mem_map.mp h with ⟨p, hp, hfst⟩
  exact List.mem_map.mpr ⟨p, (List.mem_filter.mp hp).1, hfst⟩

/-- Every conflicting name has an entry in the destination. -/

theorem conflicts_isSome (d : Dir) (ns : List String) :
    ∀ n ∈ conflictsOf d ns, (lookupEntry d n).isSome = true := by
  intro n hn
  exact (List.mem_filter.mp hn).2

/-- Looking a conflicting name up in the moved entries gives exactly the
destination entry it had. -/

theorem lookupEntry_movedOf (d : Dir) (cs : List String) (n : String)
    (hn : n ∈ cs) (hall : ∀ m ∈ cs, (lookupEntry d m).isSome = true) :
    lookupEntry (movedOf d cs) n = lookupEntry d n := by
  induction cs with
  | nil => exact absurd hn (List.not_mem_nil n)
  | cons c rest ih =>
    have hc := hall c (List.mem_cons_self c rest)
    rcases he : lookupEntry d c with _ | e
    · rw [he] at hc
      exact Bool.noConfusion hc
    · have hmoved : movedOf d (c :: rest) = (c, e) :: movedOf d rest := by
        unfold movedOf
        rw [List.filterMap_cons, he]
        rfl
      rw [hmoved]
      by_cases hcn : c = n
      · subst hcn
        simp [lookupEntry, he]
      · simp only [lookupEntry, show (c == n) = false by simp [hcn], if_false,
          Bool.false_eq_true]
        have hnrest : n ∈ rest := by
          rcases List.mem_cons.mp hn with h | h
          · exact absurd h.symm hcn
          · exact h
        exact ih hnrest (fun m hm => hall m (List.mem_cons_of_mem c hm))

/-- Names of moved entries come from the conflict list. -/

theorem movedOf_names_subset (d : Dir) (cs : List String) (n : String)
    (h : n ∈ (movedOf d cs).map Prod.fst) : n ∈ cs := by
  rcases List.mem_map.mp h with ⟨p, hp, hfst⟩
  rcases List.mem_filterMap.mp hp with ⟨m, hm, hsome⟩
  rcases he : lookupEntry d m with _ | e
  · rw [he] at hsome
    exact Option.noConfusion hsome
  · rw [he] at hsome
    have : (m, e) = p := Option.some.inj hsome
    rw [← this] at hfst
    rw [← hfst]
    exact hm

/-! Characterization of `backup_conflicting_files` and the copy loop. -/


/-- The backup directory name always carries the backup prefix. -/

theorem isBackupEntry_backupName (ts : String) (e : Entry) :
    isBackupEntry (backupName ts, e) = true := by
  show (backupPrefix.data.isPrefixOf (backupPrefix.data ++ ts.data)) = true
  rw [ List.isPrefixOf_iff_prefix]
  exact List.prefix_append _ _

theorem backup_no_conflicts (ts : String) (dest : Dir) (ns : List String)
    (h : conflictsOf dest ns = []) :
    backup_conflicting_files ts dest ns = .ok dest := by
  unfold backup_conflicting_files
  simp [h]

theorem backup_with_conflicts (ts : String) (dest : Dir) (ns : List String)
    (hc : conflictsOf dest ns ≠ []) (hb : lookupEntry dest (backupName ts) = none) :
    backup_conflicting_files ts dest ns =
      .ok (dest.filter (fun p => !((conflictsOf dest ns).contains p.1)) ++
        [(backupName ts, .dir (movedOf dest (conflictsOf dest ns)))]) := by
  unfold backup_conflicting_files
  rw [if_neg (by simp [hc]), if_neg (by simp [hb])]

/-- Inversion: a successful backup ran either the conflict-free branch or
the move branch with a fresh backup name. -/

theorem backup_cases (ts : String) (dest : Dir) (ns : List String) (d' : Dir)
    (h : backup_conflicting_files ts dest ns = .ok d') :
    (conflictsOf dest ns = [] ∧ d' = dest) ∨
    (conflictsOf dest ns ≠ [] ∧ lookupEntry dest (backupName ts) = none ∧
      d' = dest.filter (fun p => !((conflictsOf dest ns).contains p.1)) ++
        [(backupName ts, .dir (movedOf dest (conflictsOf dest ns)))]) := by
  by_cases h1 : conflictsOf dest ns = []
  · left
    rw [backup_no_conflicts ts dest ns h1] at h
    exact ⟨h1, (Except.ok.inj h).symm⟩
  · right
    refine ⟨h1, ?_, ?_⟩
    · rcases hb : lookupEntry dest (backupName ts) with _ | e
      · rfl
      · exfalso
        unfold backup_conflicting_files at h
        rw [if_neg (by simp [h1]), if_pos (by simp [hb])] at h
        exact Except.noConfusion h
    · rcases hb : lookupEntry dest (backupName ts) with _ | e
      · rw [backup_with_conflicts ts dest ns h1 hb] at h
        exact (Except.ok.inj h).symm
      · exfalso
        unfold backup_conflicting_files at h
        rw [if_neg (by simp [h1]), if_pos (by simp [hb])] at h
        exact Except.noConfusion h

/-- When no source name is present in the destination, the copy loop
appends the source items in order and never runs the `rmtree` branch. -/

theorem copy_items_fresh (src : Dir) :
    ∀ dest : Dir, (src.map Prod.fst).Nodup →
      (∀ n ∈ src.map Prod.fst, lookupEntry dest n = none) →
      copy_items src dest = (dest ++ src, 0) := by
  induction src with
  | nil =>
    intro dest _ _
    simp [copy_items]
  | cons item rest ih =>
    intro dest hnodup hfresh
    have hhead : lookupEntry dest item.1 = none := hfresh item.1 (by simp)
    have hstep : copyStep (dest, 0) item = (dest ++ [item], 0) := by
      unfold copyStep
      rcases item with ⟨n, e⟩
      cases e with
      | file c => simp [setEntry, hhead]
      | dir es => simp [hhead]
    have hmap : (item :: rest).map Prod.fst = item.1 :: rest.map Prod.fst := rfl
    rw [hmap] at hnodup
    have hnames := List.nodup_cons.mp hnodup
    have hfresh2 : ∀ n ∈ rest.map Prod.fst, lookupEntry (dest ++ [item]) n = none := by
      intro n hn
      rw [lookupEntry_eq_none]
      rw [List.map_append]
      intro hmem
      rcases List.mem_append.mp hmem with hmem | hmem
      · have := (lookupEntry_eq_none dest n).mp (hfresh n (by simp [hn]))
        exact this hmem
      · have hni : n = item.1 := by simpa using hmem
        exact hnames.1 (hni ▸ hn)
    have hrec := ih (dest ++ [item]) hnames.2 hfresh2
    unfold copy_items at hrec ⊢
    rw [List.foldl_cons, hstep, hrec, List.append_assoc]
    rfl

/-- C4: `backup_conflicting_files` mutates nothing when no incoming name
collides; with collisions (and a fresh timestamped name) it creates
exactly one backup directory holding exactly the colliding destination
entries under their own names, removes them from the destination, and
leaves every other destination entry untouched. -/

theorem spec_C4 (ts : String) (dest : Dir) (ns : List String) :
    (conflictsOf dest ns = [] →
      backup_conflicting_files ts dest ns = .ok dest) ∧
    (conflictsOf dest ns ≠ [] → lookupEntry dest (backupName ts) = none →
      ∃ d' moved,
        backup_conflicting_files ts dest ns = .ok d' ∧
        lookupEntry d' (backupName ts) = some (.dir moved) ∧
        (d'.map Prod.fst).count (backupName ts) = 1 ∧
        (∀ n, n ∉ conflictsOf dest ns → n ≠ backupName ts →
          lookupEntry d' n = lookupEntry dest n) ∧
        (∀ n ∈ conflictsOf dest ns,
          lookupEntry d' n = none ∧ lookupEntry moved n = lookupEntry dest n) ∧
        (∀ n, (lookupEntry moved n).isSome = true → n ∈ conflictsOf dest ns)) := by
  constructor
  · exact backup_no_conflicts ts dest ns
  · intro hc hb
    set cs := conflictsOf dest ns with hcs
    set q : String × Entry → Bool := fun p => !(cs.contains p.1) with hq
    set d' := dest.filter q ++ [(backupName ts, .dir (movedOf dest cs))] with hd'
    have hbmem : backupName ts ∉ (dest.filter q).map Prod.fst := by
      intro hmem
      exact (lookupEntry_eq_none dest (backupName ts)).mp hb (mem_names_filter hmem)
    refine ⟨d', movedOf dest cs, backup_with_conflicts ts dest ns hc hb, ?_, ?_, ?_, ?_, ?_⟩
    · rw [hd', lookupEntry_append_left _ _ _ hbmem]
      simp [lookupEntry]
    · rw [hd', List.map_append, List.count_append]
      rw [List.count_eq_zero.mpr hbmem]
      simp
    · intro n hncs hnb
      rw [hd', lookupEntry_append]
      have hkeep : lookupEntry (dest.filter q) n = lookupEntry dest n := by
        apply lookupEntry_filter_keep
        intro e
        simp [hq, hncs]
      rw [hkeep]
      rcases hcase : lookupEntry dest n with _ | e
      · have hbn : ¬ backupName ts = n := fun h => hnb h.symm
        simp [lookupEntry, hbn]
      · rfl
    · intro n hn
      constructor
      · rw [hd', lookupEntry_append]
        have hdrop : lookupEntry (dest.filter q) n = none := by
          apply lookupEntry_filter_drop
          intro e
          simp [hq, hn]
        rw [hdrop]
        have hnb : ¬ backupName ts = n := by
          intro h
          rw [← h] at hn
          have := conflicts_isSome dest ns (backupName ts) hn
          rw [hb] at this
          exact Bool.noConfusion this
        simp [lookupEntry, hnb]
      · exact lookupEntry_movedOf dest cs n hn (conflicts_isSome dest ns)
    · intro n hsome
      apply movedOf_names_subset dest cs n
      rw [← lookupEntry_isSome]
      exact hsome

/-- Concrete instance of C4, the example from the specification: with the
destination containing `foo.txt` and incoming `["foo.txt", "bar.txt"]`,
exactly one backup directory is created, it contains `foo.txt`, and
`bar.txt` is not moved. -/

theorem spec_C4_witness :
    conflictsOf [("foo.txt", Entry.file ['a'])] ["foo.txt", "bar.txt"] =
      ["foo.txt"] ∧
    backup_conflicting_files "t" [("foo.txt", Entry.file ['a'])]
      ["foo.txt", "bar.txt"] =
      .ok [(backupName "t", .dir [("foo.txt", Entry.file ['a'])])] ∧
    conflictsOf ([] : Dir) ["foo.txt"] = [] ∧
    backup_conflicting_files "t" ([] : Dir) ["foo.txt"] = .ok [] := by
  refine ⟨rfl, ?_, rfl, ?_⟩
  · have h := (spec_C4 "t" [("foo.txt", Entry.file ['a'])] ["foo.txt", "bar.txt"]).2
      (by decide) (by rfl)
    rcases h with ⟨d', moved, heq, _⟩
    rw [heq]
    have : d' = [(backupName "t", .dir [("foo.txt", Entry.file ['a'])])] := by
      have := backup_with_conflicts "t" [("foo.txt", Entry.file ['a'])]
        ["foo.txt", "bar.txt"] (by decide) (by rfl)
      rw [this] at heq
      exact (Except.ok.inj heq).symm
    rw [this]
  · exact (spec_C4 "t" ([] : Dir) ["foo.txt"]).1 rfl

/-- C10: after a successful `backup_conflicting_files`, no source name
remains in the destination, so the copy loop of `install_configuration`
never executes its `shutil.rmtree` branch: pre-existing destination
entries are only moved aside into the backup directory, never deleted. -/

theorem spec_C10 (src : Dir) (dest d1 : Dir) (ts : String)
    (hnodup : (src.map Prod.fst).Nodup)
    (hnb : ∀ n ∈ src.map Prod.fst, isBackupEntry (n, Entry.dir []) = false)
    (hbk : backup_conflicting_files ts dest (src.map Prod.fst) = .ok d1) :
    (∀ n ∈ src.map Prod.fst, lookupEntry d1 n = none) ∧
    (copy_items src d1).2 = 0 := by
  have hfresh : ∀ n ∈ src.map Prod.fst, lookupEntry d1 n = none := by
    intro n hn
    rcases backup_cases ts dest (src.map Prod.fst) d1 hbk with ⟨hconf, hd⟩ |
      ⟨hconf, hb, hd⟩
    · rw [hd]
      rcases hcase : lookupEntry dest n with _ | e
      · rfl
      · exfalso
        have : n ∈ conflictsOf dest (src.map Prod.fst) := by
          apply List.mem_filter.mpr
          exact ⟨hn, by rw [hcase]; rfl⟩
        rw [hconf] at this
        exact List.not_mem_nil n this
    · rw [hd]
      rw [lookupEntry_append]
      rcases hcase : lookupEntry dest n with _ | e
      · have hdrop :
            lookupEntry (dest.filter
              (fun p => !((conflictsOf dest (src.map Prod.fst)).contains p.1))) n =
              none := by
          rw [lookupEntry_eq_none]
          intro hmem
          have := (lookupEntry_eq_none dest n).mp hcase
          exact this (mem_names_filter hmem)
        rw [hdrop]
        have hnbr : ¬ backupName ts = n := by
          intro h
          have hpref := isBackupEntry_backupName ts (Entry.dir [])
          rw [h, hnb n hn] at hpref
          exact Bool.noConfusion hpref
        simp [lookupEntry, hnbr]
      · have hmemcs : n ∈ conflictsOf dest (src.map Prod.fst) := by
          apply List.mem_filter.mpr
          exact ⟨hn, by rw [hcase]; rfl⟩
        have hdrop :
            lookupEntry (dest.filter
              (fun p => !((conflictsOf dest (src.map Prod.fst)).contains p.1))) n =
              none := by
          apply lookupEntry_filter_drop
          intro e'
          simp [hmemcs]
        rw [hdrop]
        have hnbr : ¬ backupName ts = n := by
          intro h
          have hpref := isBackupEntry_backupName ts (Entry.dir [])
          rw [h, hnb n hn] at hpref
          exact Bool.noConfusion hpref
        simp [lookupEntry, hnbr]
  refine ⟨hfresh, ?_⟩
  rw [copy_items_fresh src d1 hnodup hfresh]

/-- Concrete instance of C10: one conflicting file, one fresh directory;
the backup moves the conflict aside and the copy loop deletes nothing. -/

theorem spec_C10_witness :
    (∀ n ∈ ([("a", Entry.dir []), ("b", Entry.file ['x'])] : Dir).map Prod.fst,
      lookupEntry [(backupName "t", Entry.dir [("a", Entry.file ['o'])])] n =
        none) ∧
    (copy_items [("a", Entry.dir []), ("b", Entry.file ['x'])]
      [(backupName "t", Entry.dir [("a", Entry.file ['o'])])]).2 = 0 := by
  exact spec_C10 [("a", Entry.dir []), ("b", Entry.file ['x'])]
    [("a", Entry.file ['o'])] [(backupName "t", Entry.dir [("a", Entry.file ['o'])])]
    "t" (by decide) (by decide) (by rfl)

/-- After a successful backup, no source name remains in the returned
destination (it was either absent or moved into the backup directory). -/

theorem backup_fresh_lookup (src : Dir) (dest d1 : Dir) (ts : String)
    (hnb : ∀ n ∈ src.map Prod.fst, isBackupEntry (n, Entry.dir []) = false)
    (hbk : backup_conflicting_files ts dest (src.map Prod.fst) = .ok d1) :
    ∀ n ∈ src.map Prod.fst, lookupEntry d1 n = none := by
  intro n hn
  rcases backup_cases ts dest (src.map Prod.fst) d1 hbk with ⟨hconf, hd⟩ |
    ⟨hconf, hb, hd⟩
  · rw [hd]
    rcases hcase : lookupEntry dest n with _ | e
    · rfl
    · exfalso
      have : n ∈ conflictsOf dest (src.map Prod.fst) := by
        apply List.mem_filter.mpr
        exact ⟨hn, by rw [hcase]; rfl⟩
      rw [hconf] at this
      exact List.not_mem_nil n this
  · rw [hd]
    rw [lookupEntry_append]
    have hnbr : ¬ backupName ts = n := by
      intro h
      have hpref := isBackupEntry_backupName ts (Entry.dir [])
      rw [h, hnb n hn] at hpref
      exact Bool.noConfusion hpref
    rcases hcase : lookupEntry dest n with _ | e
    · have hdrop :
          lookupEntry (dest.filter
            (fun p => !((conflictsOf dest (src.map Prod.fst)).contains p.1))) n =
            none := by
        rw [lookupEntry_eq_none]
        intro hmem
        exact (lookupEntry_eq_none dest n).mp hcase (mem_names_filter hmem)
      rw [hdrop]
      simp [lookupEntry, hnbr]
    · have hmemcs : n ∈ conflictsOf dest (src.map Prod.fst) := by
        apply List.mem_filter.mpr
        exact ⟨hn, by rw [hcase]; rfl⟩
      have hdrop :
          lookupEntry (dest.filter
            (fun p => !((conflictsOf dest (src.map Prod.fst)).contains p.1))) n =
            none := by
        apply lookupEntry_filter_drop
        intro e'
        simp [hmemcs]
      rw [hdrop]
      simp [lookupEntry, hnbr]

/-- A successful run of `install_configuration` is a successful backup
followed by the copy loop. -/

theorem install_configuration_inv (dest bundle : Dir) (langs : List String)
    (ts : String) (src out : Dir)
    (hprep : prepare_source bundle langs = .ok src)
    (hrun : install_configuration dest bundle langs ts = .ok out) :
    ∃ d1, backup_conflicting_files ts dest (src.map Prod.fst) = .ok d1 ∧
      out = (copy_items src d1).1 := by
  unfold install_configuration at hrun
  rw [hprep] at hrun
  have hrun' : Bind.bind (backup_conflicting_files ts dest (src.map Prod.fst))
      (fun d1 => Except.ok (copy_items src d1).1) = Except.ok out := hrun
  rcases hbk : backup_conflicting_files ts dest (src.map Prod.fst) with e | d1
  · rw [hbk] at hrun'
    have hcontra : (Except.error e : Except String Dir) = Except.ok out := hrun'
    exact Except.noConfusion hcontra
  · rw [hbk] at hrun'
    have hok : Except.ok (copy_items src d1).1 = Except.ok out := hrun'
    exact ⟨d1, rfl, (Except.ok.inj hok).symm⟩

theorem countBackupDirs_append (a b : Dir) :
    countBackupDirs (a ++ b) = countBackupDirs a + countBackupDirs b := by
  unfold countBackupDirs
  rw [List.filter_append, List.length_append]

theorem countBackupDirs_backup_singleton (ts : String) (e : Entry) :
    countBackupDirs [(backupName ts, e)] = 1 := by
  unfold countBackupDirs
  rw [List.filter_cons, if_pos (isBackupEntry_backupName ts e)]
  rfl

theorem filter_nonbackup_singleton (ts : String) (e : Entry) :
    [(backupName ts, e)].filter (fun p => !(isBackupEntry p)) = [] := by
  simp [isBackupEntry_backupName]

/-- C9 (amended): with a fixed bundle and language selection, the second
of two consecutive runs of `install_configuration` against the same
destination creates exactly one additional backup directory, and apart
from backup directories the destination after both runs equals the
destination after the first run alone (the later content wins).  The
first run creates a backup directory only when it actually has
conflicts, which is where the claim as stated fails (see the
counterexample). -/

theorem spec_C9_amended (bundle : Dir) (langs : List String)
    (src dest0 dest1 dest2 : Dir) (ts1 ts2 : String)
    (hprep : prepare_source bundle langs = .ok src)
    (hne : src ≠ [])
    (hnodup : (src.map Prod.fst).Nodup)
    (hnb : ∀ n ∈ src.map Prod.fst, isBackupEntry (n, Entry.dir []) = false)
    (hrun1 : install_configuration dest0 bundle langs ts1 = .ok dest1)
    (hrun2 : install_configuration dest1 bundle langs ts2 = .ok dest2) :
    countBackupDirs dest2 = countBackupDirs dest1 + 1 ∧
    dest2.filter (fun p => !(isBackupEntry p)) =
      dest1.filter (fun p => !(isBackupEntry p)) := by
  rcases install_configuration_inv dest0 bundle langs ts1 src dest1 hprep hrun1
    with ⟨d1, hbk1, hout1⟩
  have hfresh1 := backup_fresh_lookup src dest0 d1 ts1 hnb hbk1
  have hshape1 : dest1 = d1 ++ src := by
    rw [hout1, copy_items_fresh src d1 hnodup hfresh1]
  rcases install_configuration_inv dest1 bundle langs ts2 src dest2 hprep hrun2
    with ⟨d2, hbk2, hout2⟩
  have hfresh2 := backup_fresh_lookup src dest1 d2 ts2 hnb hbk2
  have hshape2 : dest2 = d2 ++ src := by
    rw [hout2, copy_items_fresh src d2 hnodup hfresh2]
  have hconf2 : conflictsOf dest1 (src.map Prod.fst) = src.map Prod.fst := by
    unfold conflictsOf
    apply List.filter_eq_self.mpr
    intro n hn
    rw [hshape1, lookupEntry_append, hfresh1 n hn]
    show (lookupEntry src n).isSome = true
    rw [lookupEntry_isSome]
    exact hn
  have hconfne : conflictsOf dest1 (src.map Prod.fst) ≠ [] := by
    rw [hconf2]
    intro h
    exact hne (List.map_eq_nil_iff.mp h)
  rcases backup_cases ts2 dest1 (src.map Prod.fst) d2 hbk2 with ⟨hconf, _⟩ |
    ⟨_, hb2, hd2⟩
  · exact absurd hconf hconfne
  have hfilter_src :
      src.filter (fun p => !((src.map Prod.fst).contains p.1)) = [] := by
    apply List.filter_eq_nil_iff.mpr
    intro p hp
    simp [List.mem_map.mpr ⟨p, hp, rfl⟩]
  have hfilter_d1 :
      d1.filter (fun p => !((src.map Prod.fst).contains p.1)) = d1 := by
    apply List.filter_eq_self.mpr
    intro p hp
    have hnot : p.1 ∉ src.map Prod.fst := by
      intro hmem
      have hl := hfresh1 p.1 hmem
      rw [lookupEntry_eq_none] at hl
      exact hl (List.mem_map.mpr ⟨p, hp, rfl⟩)
    simp [hnot]
  have hd2' : d2 = d1 ++ [(backupName ts2,
      Entry.dir (movedOf dest1 (conflictsOf dest1 (src.map Prod.fst))))] := by
    rw [hd2, hconf2]
    conv in dest1.filter _ => rw [hshape1]
    rw [List.filter_append, hfilter_src, hfilter_d1, List.append_nil]
  have hfsrc : src.filter (fun p => !(isBackupEntry p)) = src := by
    apply List.filter_eq_self.mpr
    intro p hp
    have hfalse := hnb p.1 (List.mem_map.mpr ⟨p, hp, rfl⟩)
    rw [show isBackupEntry p = isBackupEntry (p.1, Entry.dir []) from rfl, hfalse]
    rfl
  have hcsrc : countBackupDirs src = 0 := by
    unfold countBackupDirs
    rw [List.length_eq_zero]
    apply List.filter_eq_nil_iff.mpr
    intro p hp
    have hfalse := hnb p.1 (List.mem_map.mpr ⟨p, hp, rfl⟩)
    intro hP
    rw [show isBackupEntry p = isBackupEntry (p.1, Entry.dir []) from rfl,
      hfalse] at hP
    exact Bool.noConfusion hP
  constructor
  · rw [hshape2, hd2', hshape1, countBackupDirs_append, countBackupDirs_append,
      countBackupDirs_append, countBackupDirs_backup_singleton, hcsrc]
  · rw [hshape2, hd2', hshape1, List.filter_append, List.filter_append,
      List.filter_append, filter_nonbackup_singleton, hfsrc, List.append_nil]

/-- Counterexample to C9 as stated: on an empty destination the first run
has no conflicts and creates zero backup directories, not exactly one
per run. -/

theorem spec_C9_counterexample :
    install_configuration [] c9Bundle ["python"] "t1" = .ok c9Out1 ∧
    countBackupDirs c9Out1 = 0 ∧
    ¬ (countBackupDirs c9Out1 = countBackupDirs ([] : Dir) + 1) := by
  refine ⟨rfl, rfl, ?_⟩
  intro h
  exact Nat.noConfusion h

/-- Concrete instance of the amended C9: two consecutive runs on an
initially empty destination; the second run adds exactly one backup
directory and otherwise reproduces the single-run contents. -/

theorem spec_C9_witness :
    countBackupDirs c9Out2 = countBackupDirs c9Out1 + 1 ∧
    c9Out2.filter (fun p => !(isBackupEntry p)) =
      c9Out1.filter (fun p => !(isBackupEntry p)) := by
  refine spec_C9_amended c9Bundle ["python"] c9Out1 [] c9Out1 c9Out2 "t1" "t2"
    rfl ?_ ?_ ?_ ?_ ?_
  · intro h
    exact List.noConfusion h
  · decide
  · decide
  · rfl
  · rfl

end ProjectSetup

namespace UserSetup

/-- C7 (code bug): `main` of the user-wide installer never calls its
Safety Validator.  The outcome of the run is invariant under the resolved
destination; concretely, with the destination resolving to `/opt/evil`
outside home `/home/u`, the validator itself rejects, yet the run
proceeds through backup, mkdir, clone and symlinks. -/

theorem spec_C7_bug :
    (∀ (home d1 d2 : List String) (euid : Nat) (ex : Bool) (fs : CloneFs),
      user_main euid home d1 ex fs = user_main euid home d2 ex fs) ∧
    (∃ e, check_safe_directory ["/", "home", "u"] ["/", "opt", "evil"] =
      .error e) ∧
    user_main 1000 ["/", "home", "u"] ["/", "opt", "evil"] false
        ⟨true, true, true⟩ =
      .ok [UserAction.mkdirDest, UserAction.gitClone, UserAction.symlinkClaudeMd,
        UserAction.symlinkCommands] := by
  refine ⟨?_, ⟨_, rfl⟩, rfl⟩
  intro home d1 d2 euid ex fs
  rfl

/-- Counterexample to C8 as stated: in a clone with the user-setup folder
and the manifest but no commands folder, the operation succeeds (only
the manifest symlink is created) instead of failing with a
missing-expected-file error. -/

theorem spec_C8_counterexample :
    install_with_git_clone ⟨true, true, false⟩ =
      .ok [UserAction.gitClone, UserAction.symlinkClaudeMd] := rfl

/-- C8 (amended): `install_with_git_clone` fails with a missing-file
error exactly when the user-setup folder or the manifest is absent from
the clone; when both exist it succeeds, creating the manifest symlink
always and the commands symlink exactly when the commands folder
exists - a missing commands folder is skipped silently. -/

theorem spec_C8_amended (fs : CloneFs) :
    (isErr (install_with_git_clone fs) = true ↔
      (fs.userSetupExists = false ∨ fs.claudeMdExists = false)) ∧
    (fs.userSetupExists = true → fs.claudeMdExists = true →
      install_with_git_clone fs =
        .ok ([.gitClone, .symlinkClaudeMd] ++
          if fs.commandsExists then [.symlinkCommands] else [])) := by
  rcases fs with ⟨us, md, cm⟩
  cases us <;> cases md <;> cases cm <;> refine ⟨?_, ?_⟩
  all_goals first
    | (intro h1 h2; rfl)
    | (intro h1 h2; exact Bool.noConfusion h1)
    | (intro h1 h2; exact Bool.noConfusion h2)
    | simp [install_with_git_clone, isErr]

/-- Concrete instance of the amended C8: with everything present both
symlinks are created. -/

theorem spec_C8_witness :
    install_with_git_clone ⟨true, true, true⟩ =
      .ok [UserAction.gitClone, UserAction.symlinkClaudeMd,
        UserAction.symlinkCommands] := by
  have h := (spec_C8_amended ⟨true, true, true⟩).2 rfl rfl
  rw [h]
  rfl

end UserSetup
